import Mathlib

/-!
Verification of the stool save-backup engine against its specification,
via a shallow embedding of the Rust source (src/internal/hash.rs,
src/internal/sync.rs, src/internal/pid.rs, src/engine/mod.rs).

Machine integers are modelled as Nat (CRC-32 state stays below 2^32 because
xor and right-shift preserve that bound); fallible operations return Except;
the filesystem, the process table and the subprocess exit status are passed
in explicitly as state so that every definition is executable.
-/

namespace Stool

/-- Relative path of a filesystem entry, as its list of components
(PathBuf relative paths; components().count() is the list length). -/
abbrev RelPath := List String

/-! ## CRC-32 (crc32fast as used by src/internal/hash.rs) -/

/-- Bit-reversed IEEE CRC-32 polynomial. -/
def CRC32_POLY : Nat := 0xEDB88320

/-- One bit step of CRC-32: shift right, folding in the polynomial when the
low bit is set. -/
def crc32Bit (crc : Nat) : Nat :=
  if crc % 2 = 1 then (crc / 2) ^^^ CRC32_POLY else crc / 2

/-- Feed one byte into the CRC-32 accumulator state. -/
def crc32Byte (crc b : Nat) : Nat :=
  Nat.iterate crc32Bit 8 (crc ^^^ (b % 256))

/-- Feed a list of bytes into the CRC-32 accumulator state. -/
def crc32Update (crc : Nat) (data : List Nat) : Nat :=
  data.foldl crc32Byte crc

/-- CRC-32 checksum of a byte list (initial state and final xor are
0xFFFFFFFF, matching crc32fast::Hasher::new / finalize). -/
def crc32 (data : List Nat) : Nat :=
  crc32Update 0xFFFFFFFF data ^^^ 0xFFFFFFFF

/-! ## Hasher (src/internal/hash.rs, hash_crc32) -/

/-- Size of the stack read buffer in hash_crc32 (512 KiB). -/
def BUFFER_SIZE : Nat := 524288

/-- Result of one read call on the opened file: a chunk of at most
BUFFER_SIZE bytes (the empty chunk means end of file), or an I/O error. -/
inductive ReadEvent where
  | chunk (data : List Nat)
  | readErr
deriving DecidableEq

/-- The read loop of hash_crc32: while the read succeeds, stop on a zero-byte
read, otherwise feed the buffer to the accumulator and invoke the progress
callback with the byte count; a failing read merely ends the while-let loop.
Returns the final accumulator state and the callback arguments in order. -/
def hashLoop : Nat → List ReadEvent → Nat × List Nat
  | crc, [] => (crc, [])
  | crc, ReadEvent.chunk [] :: _ => (crc, [])
  | crc, ReadEvent.chunk d :: rest =>
      let r := hashLoop (crc32Update crc d) rest
      (r.1, d.length :: r.2)
  | crc, ReadEvent.readErr :: _ => (crc, [])

/-- Embedding of hash_crc32: a failed File::open is the only error; on
success the read loop runs and the finalized hash plus the sequence of
progress-callback arguments is returned. -/
def hash_crc32 (openOk : Bool) (evs : List ReadEvent) : Except Unit (Nat × List Nat) :=
  if openOk then
    let r := hashLoop 0xFFFFFFFF evs
    Except.ok (r.1 ^^^ 0xFFFFFFFF, r.2)
  else Except.error ()

/-- Bytes actually consumed by the read loop: everything before the first
end-of-file or failing read. -/
def bytesRead : List ReadEvent → List Nat
  | [] => []
  | ReadEvent.chunk [] :: _ => []
  | ReadEvent.chunk d :: rest => d ++ bytesRead rest
  | ReadEvent.readErr :: _ => []

/-- Sizes of the buffers consumed by the read loop, i.e. the arguments the
progress callback receives. -/
def chunkSizes : List ReadEvent → List Nat
  | [] => []
  | ReadEvent.chunk [] :: _ => []
  | ReadEvent.chunk d :: rest => d.length :: chunkSizes rest
  | ReadEvent.readErr :: _ => []

/-! ## Archive codec (src/engine/mod.rs, create_archive / unpack_archive) -/

/-- Embedding of create_archive: Command::status() returns an error only when
the 7z subprocess could not be spawned; the returned ExitStatus is discarded
by the Rust code, so the exit code never influences the result. -/
def create_archive (status : Except Unit Int) : Except Unit Unit :=
  match status with
  | Except.error e => Except.error e
  | Except.ok _ => Except.ok ()

/-- Embedding of unpack_archive, identical error structure to
create_archive. -/
def unpack_archive (status : Except Unit Int) : Except Unit Unit :=
  match status with
  | Except.error e => Except.error e
  | Except.ok _ => Except.ok ()

/-! ## PID lock (src/internal/pid.rs, PidLock::acquire) -/

/-- Observable filesystem behaviour during one PidLock::acquire call:
whether the lock file exists, whether File::open succeeds on it, what
read_to_string yields, and whether File::create and write succeed. -/
structure PidEnv where
  fileExists : Bool
  openOk : Bool
  readResult : Except Unit String
  createOk : Bool
  writeOk : Bool

/-- The create-and-write tail of PidLock::acquire: on success the current
process id is written to the file and returned as the handle's content. -/
def tryCreatePid (env : PidEnv) (selfPid : Nat) : Option Nat :=
  if env.createOk then (if env.writeOk then some selfPid else none) else none

/-- Embedding of PidLock::acquire: if the file exists and opens, a failed
read returns None; a parsed decimal PID belonging to a running process
returns None; in all remaining cases the code falls through to creating and
writing the lock file. -/
def acquire (env : PidEnv) (running : Nat → Bool) (selfPid : Nat) : Option Nat :=
  if env.fileExists then
    if env.openOk then
      match env.readResult with
      | Except.error _ => none
      | Except.ok s =>
          match s.toNat? with
          | some pid => if running pid then none else tryCreatePid env selfPid
          | none => tryCreatePid env selfPid
    else tryCreatePid env selfPid
  else tryCreatePid env selfPid

/-- A live holder blocks the acquire: the file exists, opens, and either the
read fails (the code then returns None) or the content parses to the PID of
a running process. -/
def blocksAcquire (env : PidEnv) (running : Nat → Bool) : Bool :=
  env.fileExists &&
    (env.openOk &&
      (match env.readResult with
       | Except.error _ => true
       | Except.ok s =>
           match s.toNat? with
           | some pid => running pid
           | none => false))

/-! ## Retry policy (src/internal/sync.rs, sync_dir / sync_file loop) -/

/-- Error type of SyncJob::execute (SyncJobError). The transparent Anyhow
variant covers every wrapped anyhow error. -/
inductive SyncJobError where
  | anyhowErr
  | checksumMismatch
  | fileNotFound (path : RelPath)
  | readError (path : RelPath)
deriving DecidableEq

/-- The error classes the sync loop logs and retries; everything else falls
to the catch-all arm that returns the error. -/
def isRetriable : SyncJobError → Bool
  | SyncJobError.checksumMismatch => true
  | SyncJobError.fileNotFound _ => true
  | SyncJobError.readError _ => true
  | SyncJobError.anyhowErr => false

/-- Outcome of one iteration of the sync_dir / sync_file loop: the scan or
plan phase (or, in sync_file, the metadata and source-hash steps) failed and
the question-mark operator propagates the error at once, or the planned job
executed successfully, or the job execution failed with a SyncJobError. -/
inductive AttemptResult where
  | prepErr
  | execOk
  | execErr (e : SyncJobError)

/-- Error surfaced by the retry loop: a propagated scan/plan error, or a job
error converted into the anyhow return value. -/
inductive LoopError where
  | prep
  | job (e : SyncJobError)
deriving DecidableEq

/-- Embedding of the retry loop shared by sync_dir and sync_file: iteration i
re-runs the whole cycle; on a job failure the attempt counter increments,
more than 3 attempts returns the error, a retriable class loops again, and
any other class returns immediately. -/
def syncRetryLoop (out : Nat → AttemptResult) (i attempt : Nat) : Except LoopError Unit :=
  match out i with
  | AttemptResult.prepErr => Except.error LoopError.prep
  | AttemptResult.execOk => Except.ok ()
  | AttemptResult.execErr e =>
      if h : attempt + 1 > 3 then Except.error (LoopError.job e)
      else if isRetriable e then syncRetryLoop out (i + 1) (attempt + 1)
      else Except.error (LoopError.job e)
termination_by 4 - attempt
decreasing_by omega

/-! ## Sync data model (src/internal/sync.rs) -/

/-- Contents and last-modification time of a regular file; metadata len is
the content length, the CRC is computed from the content, and the FileTime
is only ever compared for equality so an integer stands in for it. -/
structure File where
  content : List Nat
  mtime : Int
deriving DecidableEq

/-- Size of a file as reported by metadata().len(). -/
def File.size (f : File) : Nat := f.content.length

/-- CRC-32 of the file contents, as computed by hash_crc32 when every read
succeeds. -/
def File.crc (f : File) : Nat := crc32 f.content

/-- State of one directory tree on disk: which relative paths hold a regular
file and which hold a directory. -/
structure Tree where
  files : RelPath → Option File
  dirs : RelPath → Bool

/-- Scanned SyncDir: the relative paths of its directories and files. The
two HashSets are embedded as their iteration sequences, so set operations
become order-preserving list filters. -/
structure SyncDirM where
  dirs : List RelPath
  files : List RelPath
deriving DecidableEq

/-- HashSet::difference on scanned path lists, keeping the left list's
iteration order. -/
def pathDiff (a b : List RelPath) : List RelPath :=
  a.filter (fun p => decide (p ∉ b))

/-- HashSet::intersection on scanned path lists, keeping the left list's
iteration order. -/
def pathInter (a b : List RelPath) : List RelPath :=
  a.filter (fun p => decide (p ∈ b))

/-- The planned operations (SyncOp); verifyCheckSum records the source size
and CRC computed at planning time. -/
inductive SyncOp where
  | copy (path : RelPath)
  | createDir (path : RelPath)
  | delete (path : RelPath)
  | removeDir (path : RelPath)
  | verifyCheckSum (path : RelPath) (size : Nat) (crc32 : Nat)
deriving DecidableEq

/-- Modelled from the spec: the directory scan of SyncDir::new as the engine
invokes it. engine/mod.rs calls sync_dir with an include glob set and an
ignore glob set, but src/internal/sync.rs holds an earlier revision whose
SyncDir::new takes only the ignore set, so the include handling follows the
spec's words: for each walked entry compute its relative path; if it matches
ignore, skip; for files only, if include is set and it does not match, skip;
classify as dir or file. With includeMatch = none this coincides with the
SyncDir::new under src/. Entries are the walk results in order, as pairs of
relative path and the is-file flag; glob sets are embedded as predicates. -/
def scanEntries (includeMatch : Option (RelPath → Bool)) (ignoreMatch : RelPath → Bool) : List (RelPath × Bool) → SyncDirM
  | [] => { dirs := [], files := [] }
  | (p, isFile) :: rest =>
      let s := scanEntries includeMatch ignoreMatch rest
      if ignoreMatch p then s
      else if isFile then
        match includeMatch with
        | some inc => if inc p then { s with files := p :: s.files } else s
        | none => { s with files := p :: s.files }
      else { s with dirs := p :: s.dirs }

/-- Scan of a tree state over a fixed enumeration univ of candidate relative
paths: an entry is listed iff it is present in the tree and its relative
path does not match the ignore set, mirroring SyncDir::new's recursive walk
(which skips matching entries but still descends into their subtrees). -/
def scanTree (ignoreMatch : RelPath → Bool) (univ : List RelPath) (t : Tree) : SyncDirM :=
  { dirs := univ.filter (fun p => t.dirs p && !ignoreMatch p),
    files := univ.filter (fun p => (t.files p).isSome && !ignoreMatch p) }

/-- Planning pass over the files present in src but not in dst: reading the
source metadata can fail (the question mark aborts the plan); otherwise a
Copy op is pushed and a VerifyCheckSum op with the pre-computed source size
and CRC is pushed onto the deferred list. -/
def planNew (srcFs : RelPath → Option File) : List RelPath → Except Unit (List SyncOp × List SyncOp)
  | [] => Except.ok ([], [])
  | p :: rest =>
      match srcFs p with
      | none => Except.error ()
      | some f =>
          match planNew srcFs rest with
          | Except.error e => Except.error e
          | Except.ok (ops, post) =>
              Except.ok (SyncOp.copy p :: ops, SyncOp.verifyCheckSum p f.size f.crc :: post)

/-- Planning pass over the files present in both trees: metadata of both
sides is read (failure aborts the plan); when size and modification time
both match the file is skipped, otherwise a Copy op and a deferred
VerifyCheckSum op are pushed. -/
def planChanged (srcFs dstFs : RelPath → Option File) : List RelPath → Except Unit (List SyncOp × List SyncOp)
  | [] => Except.ok ([], [])
  | p :: rest =>
      match dstFs p, srcFs p with
      | some df, some sf =>
          match planChanged srcFs dstFs rest with
          | Except.error e => Except.error e
          | Except.ok (ops, post) =>
              if sf.size = df.size ∧ sf.mtime = df.mtime then Except.ok (ops, post)
              else Except.ok (SyncOp.copy p :: ops, SyncOp.verifyCheckSum p sf.size sf.crc :: post)
      | _, _ => Except.error ()

/-- Decides whether the size-and-mtime comparison treats the file as
changed; files with missing metadata never reach this point in a completed
plan. -/
def fileChangedB (srcFs dstFs : RelPath → Option File) (p : RelPath) : Bool :=
  match dstFs p, srcFs p with
  | some df, some sf => if sf.size = df.size ∧ sf.mtime = df.mtime then false else true
  | _, _ => true

/-- The VerifyCheckSum op recorded for a source file at planning time. -/
def verifyOf (srcFs : RelPath → Option File) (p : RelPath) : SyncOp :=
  match srcFs p with
  | some f => SyncOp.verifyCheckSum p f.size f.crc
  | none => SyncOp.verifyCheckSum p 0 0

/-- Insert a path into a list kept sorted by non-increasing component
count. -/
def insertDeep (p : RelPath) : List RelPath → List RelPath
  | [] => [p]
  | q :: rest => if p.length ≤ q.length then q :: insertDeep p rest else p :: q :: rest

/-- Sort by descending component count, i.e.
sort_unstable_by_key(Reverse(components().count())). -/
def sortDeepestFirst (l : List RelPath) : List RelPath :=
  l.foldr insertDeep []

/-- Embedding of SyncDir::sync_from (self is the destination, other the
source): CreateDir for dirs in src minus dst, Copy plus deferred
VerifyCheckSum for files in src minus dst, Copy plus deferred
VerifyCheckSum for changed files present in both, Delete for files in dst
minus src, RemoveDir deepest-first for dirs in dst minus src, and the
deferred verify list appended at the end. -/
def sync_from (dst src : SyncDirM) (srcFs dstFs : RelPath → Option File) : Except Unit (List SyncOp) :=
  match planNew srcFs (pathDiff src.files dst.files) with
  | Except.error e => Except.error e
  | Except.ok (copyNew, postNew) =>
      match planChanged srcFs dstFs (pathInter src.files dst.files) with
      | Except.error e => Except.error e
      | Except.ok (copyChg, postChg) =>
          Except.ok
            ((pathDiff src.dirs dst.dirs).map SyncOp.createDir ++
              (copyNew ++ (copyChg ++
                ((pathDiff dst.files src.files).map SyncOp.delete ++
                  ((sortDeepestFirst (pathDiff dst.dirs src.dirs)).map SyncOp.removeDir ++
                    (postNew ++ postChg))))))

/-- Effect of one SyncOp in SyncJob::execute on the destination tree. Copy
reads the source metadata (ReadError when absent) and writes the source's
content and modification time to the destination; Delete and RemoveDir
require their target to exist, any other I/O failure being the wrapped
anyhow case (the additional failure of remove_dir on a non-empty directory
is not modelled; every claim below conditions on a successful execution);
VerifyCheckSum re-hashes the destination file and compares with the
recorded CRC. -/
def applyOp (srcFs : RelPath → Option File) (st : Tree) : SyncOp → Except SyncJobError Tree
  | SyncOp.copy p =>
      match srcFs p with
      | none => Except.error (SyncJobError.readError p)
      | some f => Except.ok { st with files := fun q => if q = p then some f else st.files q }
  | SyncOp.createDir p => Except.ok { st with dirs := fun q => if q = p then true else st.dirs q }
  | SyncOp.delete p =>
      match st.files p with
      | none => Except.error SyncJobError.anyhowErr
      | some _ => Except.ok { st with files := fun q => if q = p then none else st.files q }
  | SyncOp.removeDir p =>
      if st.dirs p then Except.ok { st with dirs := fun q => if q = p then false else st.dirs q }
      else Except.error SyncJobError.anyhowErr
  | SyncOp.verifyCheckSum p _ c =>
      match st.files p with
      | none => Except.error SyncJobError.anyhowErr
      | some f => if f.crc = c then Except.ok st else Except.error SyncJobError.checksumMismatch

/-- SyncJob::execute: run the ops in listed order, stopping at the first
error; on success the final destination tree is returned. -/
def executeOps (srcFs : RelPath → Option File) (st : Tree) : List SyncOp → Except SyncJobError Tree
  | [] => Except.ok st
  | op :: rest =>
      match applyOp srcFs st op with
      | Except.error e => Except.error e
      | Except.ok st1 => executeOps srcFs st1 rest

/-- One scan-and-plan cycle of sync_dir: scan the source with the ignore
set, scan the destination with GlobSet::empty (the always-false matcher),
then plan dst.sync_from(src). -/
def syncDirPlan (ignoreMatch : RelPath → Bool) (univ : List RelPath) (srcT dstT : Tree) : Except Unit (List SyncOp) :=
  sync_from (scanTree (fun _ => false) univ dstT) (scanTree ignoreMatch univ srcT) srcT.files dstT.files

/-! ## Grace-time wait (src/engine/mod.rs, backup worker CreateBackup arm) -/

/-- One locked read of last_change_at inside the grace-time wait: when the
last change is within grace of now the remaining delta is returned and the
slot is kept; otherwise the slot is cleared and the remaining delta is
zero. Returns the new slot value and the remaining delta. -/
def graceRead (grace now : Nat) (lca : Option Nat) : Option Nat × Nat :=
  match lca with
  | some t => if now - t < grace then (some t, grace - (now - t)) else (none, 0)
  | none => (none, 0)

/-- Executions of the grace-time wait loop. GraceWait grace now lca writes
tExit relates a loop iteration waking at time now with stored value lca to
the time tExit at which the loop breaks and staging may begin; each retry
sleeps for the remaining delta, so the next wake-up is no earlier than now
plus that delta, and the watcher may concurrently overwrite the slot with a
change time no later than the next read (writes lists the overwrites the
subsequent reads observe). -/
inductive GraceWait (grace : Nat) : Nat → Option Nat → List Nat → Nat → Prop where
  | exit (now : Nat) (lca : Option Nat) :
      (graceRead grace now lca).2 = 0 → GraceWait grace now lca [] now
  | retryKeep (now now' : Nat) (lca : Option Nat) (writes : List Nat) (tExit : Nat) :
      (graceRead grace now lca).2 ≠ 0 →
      now + (graceRead grace now lca).2 ≤ now' →
      GraceWait grace now' lca writes tExit →
      GraceWait grace now lca writes tExit
  | retryWrite (now now' c : Nat) (lca : Option Nat) (writes : List Nat) (tExit : Nat) :
      (graceRead grace now lca).2 ≠ 0 →
      now + (graceRead grace now lca).2 ≤ now' →
      c ≤ now' →
      GraceWait grace now' (some c) writes tExit →
      GraceWait grace now lca (c :: writes) tExit

/-! ## Hasher lemmas and claims C5, C6 -/

/-- The read loop computes the accumulator over the concatenation of the
consumed chunks and reports exactly their sizes to the callback. -/
theorem hashLoop_eq (crc : Nat) (evs : List ReadEvent) :
    hashLoop crc evs = (crc32Update crc (bytesRead evs), chunkSizes evs) := by
  induction evs generalizing crc with
  | nil => simp [hashLoop, bytesRead, chunkSizes, crc32Update]
  | cons e rest ih =>
      cases e with
      | chunk d =>
          cases d with
          | nil => simp [hashLoop, bytesRead, chunkSizes, crc32Update]
          | cons b bs =>
              simp only [hashLoop, bytesRead, chunkSizes, ih, crc32Update, List.foldl_append]
      | readErr => simp [hashLoop, bytesRead, chunkSizes, crc32Update]

/-- C5 (amended): hash_crc32 fails exactly when opening the file fails; on
success it feeds the consumed buffers into the CRC-32 accumulator, so the
result is the CRC-32 of the concatenation of the bytes read before the
first end-of-file or failing read, and the progress callback is invoked
once per consumed buffer with that buffer's byte count; the read buffer
holds 512 KiB. An I/O failure during reading does not produce an error. -/
theorem hash_crc32_spec (evs : List ReadEvent) :
    hash_crc32 false evs = Except.error () ∧
    hash_crc32 true evs = Except.ok (crc32 (bytesRead evs), chunkSizes evs) ∧
    BUFFER_SIZE = 524288 := by
  refine ⟨rfl, ?_, rfl⟩
  simp [hash_crc32, hashLoop_eq, crc32]

/-- C5 counterexample: with the file opened and the very first read failing
with an I/O error, hash_crc32 returns success (the CRC of the empty prefix)
instead of failing with a ReadError as the claim states. -/
theorem hash_crc32_read_error_swallowed :
    hash_crc32 true [ReadEvent.readErr] = Except.ok (0, []) := rfl

/-- C6: the 7z subprocess exit status is discarded by create_archive and
unpack_archive: a non-zero exit code (here 2) still yields Ok, and only a
spawn failure of the subprocess surfaces as an error. -/
theorem archive_exit_code_ignored :
    create_archive (Except.ok 2) = Except.ok () ∧
    unpack_archive (Except.ok 2) = Except.ok () ∧
    create_archive (Except.error ()) = Except.error () ∧
    unpack_archive (Except.error ()) = Except.error () :=
  ⟨rfl, rfl, rfl, rfl⟩

/-! ## PID lock: claim C7 -/

/-- C7 counterexample: with no lock file present and no process running, the
claim demands a handle, but a failing File::create makes acquire return
None. -/
theorem acquire_io_failure_returns_none :
    acquire ⟨false, false, Except.ok "", false, false⟩ (fun _ => false) 42 = none ∧
    blocksAcquire ⟨false, false, Except.ok "", false, false⟩ (fun _ => false) = false :=
  ⟨rfl, rfl⟩

/-- C7 (amended): acquire returns a handle (carrying the freshly written
current PID) iff no live holder blocks it and creating and writing the new
lock file both succeed; a blocked acquire means the file exists, opens, and
either reading it fails or its content parses to the PID of a running
process. In particular an unreadable lock file or a failed create or write
also yields None, and an existing file that cannot be opened skips the
liveness check entirely. -/
theorem acquire_characterization (env : PidEnv) (running : Nat → Bool) (selfPid : Nat) :
    acquire env running selfPid =
      if blocksAcquire env running || !(env.createOk && env.writeOk) then none
      else some selfPid := by
  obtain ⟨fe, oo, rr, co, wo⟩ := env
  simp only [acquire, blocksAcquire, tryCreatePid]
  cases fe <;> cases oo <;> cases co <;> cases wo <;> simp <;>
    (cases rr with
     | error e => rfl
     | ok s =>
         cases h : s.toNat? with
         | none => simp [h]
         | some pid => cases hr : running pid <;> simp [h, hr])

/-! ## Retry loop lemmas and claim C2 -/

theorem syncRetryLoop_prep (out : Nat → AttemptResult) (i a : Nat)
    (h : out i = AttemptResult.prepErr) :
    syncRetryLoop out i a = Except.error LoopError.prep := by
  unfold syncRetryLoop
  rw [h]

theorem syncRetryLoop_ok (out : Nat → AttemptResult) (i a : Nat)
    (h : out i = AttemptResult.execOk) :
    syncRetryLoop out i a = Except.ok () := by
  unfold syncRetryLoop
  rw [h]

theorem syncRetryLoop_fatal (out : Nat → AttemptResult) (i a : Nat) (e : SyncJobError)
    (h : out i = AttemptResult.execErr e) (hr : isRetriable e = false) :
    syncRetryLoop out i a = Except.error (LoopError.job e) := by
  rw [syncRetryLoop.eq_def, h]
  simp [hr]

theorem syncRetryLoop_exhausted (out : Nat → AttemptResult) (i a : Nat) (e : SyncJobError)
    (h : out i = AttemptResult.execErr e) (ha : a + 1 > 3) :
    syncRetryLoop out i a = Except.error (LoopError.job e) := by
  rw [syncRetryLoop.eq_def, h]
  simp [ha]

theorem syncRetryLoop_retry (out : Nat → AttemptResult) (i a : Nat) (e : SyncJobError)
    (h : out i = AttemptResult.execErr e) (hr : isRetriable e = true) (ha : ¬a + 1 > 3) :
    syncRetryLoop out i a = syncRetryLoop out (i + 1) (a + 1) := by
  conv_lhs => rw [syncRetryLoop.eq_def]
  rw [h]
  simp [ha, hr]

/-- C2: the retry loop of sync_dir and sync_file: a scan or plan failure is
returned at once; a non-retriable job error is returned at once; if four
consecutive attempts fail with retriable errors (ChecksumMismatch,
FileNotFound or ReadError), the fourth error is returned, so there are at
most 3 retries and at most 4 attempts; and a success on attempt k ≤ 3 after
retriable failures returns Ok. -/
theorem sync_retry_policy (out : Nat → AttemptResult) :
    (out 0 = AttemptResult.prepErr → syncRetryLoop out 0 0 = Except.error LoopError.prep) ∧
    (∀ e, out 0 = AttemptResult.execErr e → isRetriable e = false →
      syncRetryLoop out 0 0 = Except.error (LoopError.job e)) ∧
    ((∀ j, j ≤ 3 → ∃ e, out j = AttemptResult.execErr e ∧ isRetriable e = true) →
      ∀ e3, out 3 = AttemptResult.execErr e3 →
        syncRetryLoop out 0 0 = Except.error (LoopError.job e3)) ∧
    (∀ k, k ≤ 3 → out k = AttemptResult.execOk →
      (∀ j, j < k → ∃ e, out j = AttemptResult.execErr e ∧ isRetriable e = true) →
      syncRetryLoop out 0 0 = Except.ok ()) := by
  refine ⟨fun h => syncRetryLoop_prep out 0 0 h,
    fun e h hr => syncRetryLoop_fatal out 0 0 e h hr, ?_, ?_⟩
  · intro hall e3 h3
    obtain ⟨e0, h0, r0⟩ := hall 0 (by omega)
    obtain ⟨e1, h1, r1⟩ := hall 1 (by omega)
    obtain ⟨e2, h2, r2⟩ := hall 2 (by omega)
    rw [syncRetryLoop_retry out 0 0 e0 h0 r0 (by omega),
      syncRetryLoop_retry out 1 1 e1 h1 r1 (by omega),
      syncRetryLoop_retry out 2 2 e2 h2 r2 (by omega)]
    exact syncRetryLoop_exhausted out 3 3 e3 h3 (by omega)
  · intro k hk hok hall
    interval_cases k
    · exact syncRetryLoop_ok out 0 0 hok
    · obtain ⟨e0, h0, r0⟩ := hall 0 (by omega)
      rw [syncRetryLoop_retry out 0 0 e0 h0 r0 (by omega)]
      exact syncRetryLoop_ok out 1 1 hok
    · obtain ⟨e0, h0, r0⟩ := hall 0 (by omega)
      obtain ⟨e1, h1, r1⟩ := hall 1 (by omega)
      rw [syncRetryLoop_retry out 0 0 e0 h0 r0 (by omega),
        syncRetryLoop_retry out 1 1 e1 h1 r1 (by omega)]
      exact syncRetryLoop_ok out 2 2 hok
    · obtain ⟨e0, h0, r0⟩ := hall 0 (by omega)
      obtain ⟨e1, h1, r1⟩ := hall 1 (by omega)
      obtain ⟨e2, h2, r2⟩ := hall 2 (by omega)
      rw [syncRetryLoop_retry out 0 0 e0 h0 r0 (by omega),
        syncRetryLoop_retry out 1 1 e1 h1 r1 (by omega),
        syncRetryLoop_retry out 2 2 e2 h2 r2 (by omega)]
      exact syncRetryLoop_ok out 3 3 hok

/-- C2 witness: four consecutive checksum mismatches exhaust the retries and
surface the final error. -/
theorem sync_retry_policy_witness :
    syncRetryLoop (fun _ => AttemptResult.execErr SyncJobError.checksumMismatch) 0 0 =
      Except.error (LoopError.job SyncJobError.checksumMismatch) :=
  (sync_retry_policy (fun _ => AttemptResult.execErr SyncJobError.checksumMismatch)).2.2.1
    (fun _ _ => ⟨SyncJobError.checksumMismatch, rfl, rfl⟩)
    SyncJobError.checksumMismatch rfl

/-! ## Grace-time wait: claim C9 -/

theorem graceWait_le (grace now : Nat) (lca : Option Nat) (ws : List Nat) (t : Nat)
    (h : GraceWait grace now lca ws t) : now ≤ t := by
  induction h with
  | exit now lca h => exact Nat.le_refl _
  | retryKeep now now' lca ws t h1 h2 h3 ih => omega
  | retryWrite now now' c lca ws t h1 h2 h3 h4 ih => omega

theorem graceRead_clear_iff (grace n : Nat) (l : Option Nat) :
    (graceRead grace n l).1 = none ↔ (graceRead grace n l).2 = 0 := by
  cases l with
  | none => simp [graceRead]
  | some t =>
      simp only [graceRead]
      split
      · simp; omega
      · simp

/-- C9: whenever the grace-time wait loop is entered with a recorded change
time (in particular one within grace of now), the loop only exits at a time
at least grace after that change and at least grace after every change the
watcher records during the wait (each overwrite restarts the countdown);
and the locked read clears last_change_at exactly when it reports a
remaining delta of zero, i.e. exactly when the wait completes. -/
theorem grace_time_wait (grace now : Nat) (lca : Option Nat) (ws : List Nat) (tExit : Nat)
    (h : GraceWait grace now lca ws tExit) :
    ((∀ c, lca = some c → c ≤ now → c + grace ≤ tExit) ∧
      ∀ c ∈ ws, c + grace ≤ tExit) ∧
    (∀ n l, (graceRead grace n l).1 = none ↔ (graceRead grace n l).2 = 0) := by
  refine ⟨?_, fun n l => graceRead_clear_iff grace n l⟩
  induction h with
  | exit now lca h =>
      refine ⟨fun c hc hle => ?_, by simp⟩
      subst hc
      by_cases hcg : now - c < grace
      · simp [graceRead, hcg] at h
        omega
      · omega
  | retryKeep now now' lca ws t h1 h2 h3 ih =>
      have hnt : now' ≤ t := graceWait_le _ _ _ _ _ h3
      refine ⟨fun c hc hle => ?_, ih.2⟩
      subst hc
      by_cases hcg : now - c < grace
      · simp [graceRead, hcg] at h1 h2
        omega
      · simp [graceRead, hcg] at h1
  | retryWrite now now' c' lca ws t h1 h2 hc' h4 ih =>
      have hnt : now' ≤ t := graceWait_le _ _ _ _ _ h4
      refine ⟨fun c hc hle => ?_, ?_⟩
      · subst hc
        by_cases hcg : now - c < grace
        · simp [graceRead, hcg] at h1 h2
          omega
        · simp [graceRead, hcg] at h1
      · intro c hc
        rcases List.mem_cons.mp hc with hc | hc
        · subst hc
          exact ih.1 c rfl hc'
        · exact ih.2 c hc

/-- C9 witness: with grace 2 and a change at time 9 observed at time 10, a
watcher overwrite at time 10 observed at time 11 pushes the exit to time
12, at least grace after both changes. -/
theorem grace_time_wait_witness : 9 + 2 ≤ 12 ∧ 10 + 2 ≤ 12 := by
  have hw : GraceWait 2 10 (some 9) [10] 12 :=
    GraceWait.retryWrite 10 11 10 (some 9) [] 12 (by decide) (by decide) (by decide)
      (GraceWait.retryKeep 11 12 (some 10) [] 12 (by decide) (by decide)
        (GraceWait.exit 12 (some 10) (by decide)))
  have h := grace_time_wait 2 10 (some 9) [10] 12 hw
  exact ⟨h.1.1 9 rfl (by decide), h.1.2 10 (by simp)⟩

/-! ## Plan shape lemmas -/

theorem verifyOf_shape (srcFs : RelPath → Option File) (q : RelPath) :
    ∃ s c, verifyOf srcFs q = SyncOp.verifyCheckSum q s c := by
  unfold verifyOf
  cases srcFs q <;> exact ⟨_, _, rfl⟩

theorem verifyOf_path (srcFs : RelPath → Option File) (q p : RelPath) (s c : Nat)
    (h : verifyOf srcFs q = SyncOp.verifyCheckSum p s c) : q = p := by
  rcases hq : srcFs q with _ | f <;> simp only [verifyOf, hq] at h <;>
    exact ((SyncOp.verifyCheckSum.injEq ..).mp h).1

theorem planNew_ok (srcFs : RelPath → Option File) (l : List RelPath)
    (ops post : List SyncOp) (h : planNew srcFs l = Except.ok (ops, post)) :
    (∀ p ∈ l, (srcFs p).isSome = true) ∧
    ops = l.map SyncOp.copy ∧ post = l.map (verifyOf srcFs) := by
  induction l generalizing ops post with
  | nil =>
      simp only [planNew, Except.ok.injEq, Prod.mk.injEq] at h
      simp [h.1.symm, h.2.symm]
  | cons p rest ih =>
      simp only [planNew] at h
      split at h
      · cases h
      · rename_i f hs
        split at h
        · cases h
        · rename_i ops' post' hr
          simp only [Except.ok.injEq, Prod.mk.injEq] at h
          obtain ⟨hops, hpost⟩ := h
          obtain ⟨hall, hops', hpost'⟩ := ih ops' post' hr
          subst hops'
          subst hpost'
          refine ⟨?_, ?_, ?_⟩
          · intro q hq
            rcases List.mem_cons.mp hq with hq | hq
            · subst hq; simp [hs]
            · exact hall q hq
          · simp [hops.symm]
          · rw [hpost.symm]
            simp [verifyOf, hs]

theorem planChanged_ok (srcFs dstFs : RelPath → Option File) (l : List RelPath)
    (ops post : List SyncOp) (h : planChanged srcFs dstFs l = Except.ok (ops, post)) :
    (∀ p ∈ l, (srcFs p).isSome = true ∧ (dstFs p).isSome = true) ∧
    ops = (l.filter (fileChangedB srcFs dstFs)).map SyncOp.copy ∧
    post = (l.filter (fileChangedB srcFs dstFs)).map (verifyOf srcFs) := by
  induction l generalizing ops post with
  | nil =>
      simp only [planChanged, Except.ok.injEq, Prod.mk.injEq] at h
      simp [h.1.symm, h.2.symm]
  | cons p rest ih =>
      simp only [planChanged] at h
      split at h
      · rename_i df sf hd hs
        split at h
        · cases h
        · rename_i ops' post' hr
          obtain ⟨hall, hops', hpost'⟩ := ih ops' post' hr
          subst hops'
          subst hpost'
          have hmem : ∀ q ∈ p :: rest, (srcFs q).isSome = true ∧ (dstFs q).isSome = true := by
            intro q hq
            rcases List.mem_cons.mp hq with hq | hq
            · subst hq; simp [hs, hd]
            · exact hall q hq
          split at h
          · rename_i heq
            have hcb : fileChangedB srcFs dstFs p = false := by
              simp [fileChangedB, hd, hs, heq]
            simp only [Except.ok.injEq, Prod.mk.injEq] at h
            refine ⟨hmem, ?_, ?_⟩ <;> simp [List.filter_cons, hcb, h.1.symm, h.2.symm]
          · rename_i heq
            have hcb : fileChangedB srcFs dstFs p = true := by
              simp only [fileChangedB, hd, hs]
              split
              · exact absurd (by assumption) heq
              · rfl
            simp only [Except.ok.injEq, Prod.mk.injEq] at h
            refine ⟨hmem, ?_, ?_⟩
            · simp [List.filter_cons, hcb, h.1.symm]
            · rw [h.2.symm]
              simp [List.filter_cons, hcb, verifyOf, hs]
      · cases h

theorem sync_from_ok (dst src : SyncDirM) (srcFs dstFs : RelPath → Option File)
    (ops : List SyncOp) (h : sync_from dst src srcFs dstFs = Except.ok ops) :
    (∀ p ∈ pathDiff src.files dst.files, (srcFs p).isSome = true) ∧
    (∀ p ∈ pathInter src.files dst.files, (srcFs p).isSome = true ∧ (dstFs p).isSome = true) ∧
    ops = (pathDiff src.dirs dst.dirs).map SyncOp.createDir ++
      ((pathDiff src.files dst.files).map SyncOp.copy ++
        (((pathInter src.files dst.files).filter (fileChangedB srcFs dstFs)).map SyncOp.copy ++
          ((pathDiff dst.files src.files).map SyncOp.delete ++
            ((sortDeepestFirst (pathDiff dst.dirs src.dirs)).map SyncOp.removeDir ++
              ((pathDiff src.files dst.files).map (verifyOf srcFs) ++
                ((pathInter src.files dst.files).filter (fileChangedB srcFs dstFs)).map
                  (verifyOf srcFs)))))) := by
  unfold sync_from at h
  split at h
  · cases h
  · rename_i copyNew postNew hNew
    split at h
    · cases h
    · rename_i copyChg postChg hChg
      obtain ⟨hallN, hopsN, hpostN⟩ := planNew_ok srcFs _ copyNew postNew hNew
      obtain ⟨hallC, hopsC, hpostC⟩ := planChanged_ok srcFs dstFs _ copyChg postChg hChg
      simp only [Except.ok.injEq] at h
      subst hopsN; subst hpostN; subst hopsC; subst hpostC
      exact ⟨hallN, hallC, h.symm⟩

/-! ## Execution lemmas -/

theorem executeOps_append (srcFs : RelPath → Option File) (l1 l2 : List SyncOp) (st : Tree) :
    executeOps srcFs st (l1 ++ l2) =
      match executeOps srcFs st l1 with
      | Except.error e => Except.error e
      | Except.ok st1 => executeOps srcFs st1 l2 := by
  induction l1 generalizing st with
  | nil => simp [executeOps]
  | cons op rest ih =>
      simp only [List.cons_append, executeOps]
      cases applyOp srcFs st op with
      | error e => rfl
      | ok st1 => exact ih st1

theorem exec_verifies (srcFs : RelPath → Option File) (l : List SyncOp) (st st' : Tree)
    (hvs : ∀ op ∈ l, ∃ p s c, op = SyncOp.verifyCheckSum p s c)
    (h : executeOps srcFs st l = Except.ok st') :
    st' = st ∧ ∀ p s c, SyncOp.verifyCheckSum p s c ∈ l →
      ∃ f, st.files p = some f ∧ f.crc = c := by
  induction l generalizing st with
  | nil =>
      simp only [executeOps, Except.ok.injEq] at h
      simp [h.symm]
  | cons op rest ih =>
      obtain ⟨p0, s0, c0, hop⟩ := hvs op (by simp)
      subst hop
      cases hf0 : st.files p0 with
      | none => simp [executeOps, applyOp, hf0] at h
      | some f0 =>
          by_cases hcrc : f0.crc = c0
          · simp only [executeOps, applyOp, hf0, if_pos hcrc] at h
            obtain ⟨hst, hrest⟩ := ih st (fun op hm => hvs op (List.mem_cons_of_mem _ hm)) h
            refine ⟨hst, fun p s c hm => ?_⟩
            rcases List.mem_cons.mp hm with hm | hm
            · rw [SyncOp.verifyCheckSum.injEq] at hm
              obtain ⟨hp, hs2, hc⟩ := hm
              subst hp
              subst hc
              exact ⟨f0, hf0, hcrc⟩
            · exact hrest p s c hm
          · simp [executeOps, applyOp, hf0, hcrc] at h

/-! ## Sorting lemmas -/

theorem insertDeep_perm (p : RelPath) (l : List RelPath) :
    (insertDeep p l).Perm (p :: l) := by
  induction l with
  | nil => simp [insertDeep]
  | cons q rest ih =>
      simp only [insertDeep]
      split
      · exact (List.Perm.cons q ih).trans (List.Perm.swap p q rest)
      · exact List.Perm.refl _

theorem sortDeepestFirst_perm (l : List RelPath) : (sortDeepestFirst l).Perm l := by
  induction l with
  | nil => exact List.Perm.refl _
  | cons p rest ih =>
      exact (insertDeep_perm p (sortDeepestFirst rest)).trans (List.Perm.cons p ih)

theorem mem_insertDeep (p q : RelPath) (l : List RelPath) :
    q ∈ insertDeep p l ↔ q = p ∨ q ∈ l := by
  rw [(insertDeep_perm p l).mem_iff, List.mem_cons]

theorem insertDeep_sorted (p : RelPath) (l : List RelPath)
    (h : List.Pairwise (fun a b : RelPath => b.length ≤ a.length) l) :
    List.Pairwise (fun a b : RelPath => b.length ≤ a.length) (insertDeep p l) := by
  induction l with
  | nil => simp [insertDeep]
  | cons q rest ih =>
      rw [List.pairwise_cons] at h
      obtain ⟨hq, hrest⟩ := h
      simp only [insertDeep]
      split
      · rename_i hpq
        rw [List.pairwise_cons]
        refine ⟨fun x hx => ?_, ih hrest⟩
        rcases (mem_insertDeep p x rest).mp hx with hx | hx
        · exact hx ▸ hpq
        · exact hq x hx
      · rename_i hpq
        rw [List.pairwise_cons]
        refine ⟨fun x hx => ?_, List.pairwise_cons.mpr ⟨hq, hrest⟩⟩
        rcases List.mem_cons.mp hx with hx | hx
        · subst hx; omega
        · have := hq x hx; omega

theorem sortDeepestFirst_sorted (l : List RelPath) :
    List.Pairwise (fun a b : RelPath => b.length ≤ a.length) (sortDeepestFirst l) := by
  induction l with
  | nil => simp [sortDeepestFirst]
  | cons p rest ih => exact insertDeep_sorted p _ ih

/-! ## Membership in plans -/

theorem verifyOf_ne_copy (srcFs : RelPath → Option File) (q p : RelPath) :
    verifyOf srcFs q ≠ SyncOp.copy p := by
  rcases hq : srcFs q <;> simp [verifyOf, hq]

theorem verifyOf_ne_delete (srcFs : RelPath → Option File) (q p : RelPath) :
    verifyOf srcFs q ≠ SyncOp.delete p := by
  rcases hq : srcFs q <;> simp [verifyOf, hq]

theorem mem_ops_copy (dst src : SyncDirM) (srcFs dstFs : RelPath → Option File)
    (ops : List SyncOp) (p : RelPath) (h : sync_from dst src srcFs dstFs = Except.ok ops) :
    (SyncOp.copy p ∈ ops ↔
      p ∈ pathDiff src.files dst.files ∨
        p ∈ (pathInter src.files dst.files).filter (fileChangedB srcFs dstFs)) := by
  obtain ⟨-, -, hshape⟩ := sync_from_ok dst src srcFs dstFs ops h
  subst hshape
  simp [List.mem_append, List.mem_map, verifyOf_ne_copy]

theorem mem_ops_verify (dst src : SyncDirM) (srcFs dstFs : RelPath → Option File)
    (ops : List SyncOp) (p : RelPath) (h : sync_from dst src srcFs dstFs = Except.ok ops) :
    ((∃ s c, SyncOp.verifyCheckSum p s c ∈ ops) ↔
      p ∈ pathDiff src.files dst.files ∨
        p ∈ (pathInter src.files dst.files).filter (fileChangedB srcFs dstFs)) := by
  obtain ⟨-, -, hshape⟩ := sync_from_ok dst src srcFs dstFs ops h
  subst hshape
  constructor
  · rintro ⟨s, c, hm⟩
    rcases List.mem_append.mp hm with h1 | hm
    · obtain ⟨q, -, hq⟩ := List.mem_map.mp h1; exact SyncOp.noConfusion hq
    rcases List.mem_append.mp hm with h1 | hm
    · obtain ⟨q, -, hq⟩ := List.mem_map.mp h1; exact SyncOp.noConfusion hq
    rcases List.mem_append.mp hm with h1 | hm
    · obtain ⟨q, -, hq⟩ := List.mem_map.mp h1; exact SyncOp.noConfusion hq
    rcases List.mem_append.mp hm with h1 | hm
    · obtain ⟨q, -, hq⟩ := List.mem_map.mp h1; exact SyncOp.noConfusion hq
    rcases List.mem_append.mp hm with h1 | hm
    · obtain ⟨q, -, hq⟩ := List.mem_map.mp h1; exact SyncOp.noConfusion hq
    rcases List.mem_append.mp hm with h1 | h1
    · obtain ⟨q, hq, hv⟩ := List.mem_map.mp h1
      exact Or.inl ((verifyOf_path srcFs q p s c hv) ▸ hq)
    · obtain ⟨q, hq, hv⟩ := List.mem_map.mp h1
      exact Or.inr ((verifyOf_path srcFs q p s c hv) ▸ hq)
  · intro hm
    obtain ⟨s, c, hv⟩ := verifyOf_shape srcFs p
    refine ⟨s, c, ?_⟩
    have hfg : SyncOp.verifyCheckSum p s c ∈
        (pathDiff src.files dst.files).map (verifyOf srcFs) ++
          ((pathInter src.files dst.files).filter (fileChangedB srcFs dstFs)).map
            (verifyOf srcFs) := by
      rcases hm with hm | hm
      · exact List.mem_append.mpr (Or.inl (hv ▸ List.mem_map_of_mem _ hm))
      · exact List.mem_append.mpr (Or.inr (hv ▸ List.mem_map_of_mem _ hm))
    exact List.mem_append.mpr (Or.inr (List.mem_append.mpr (Or.inr (List.mem_append.mpr
      (Or.inr (List.mem_append.mpr (Or.inr (List.mem_append.mpr (Or.inr hfg)))))))))

theorem mem_ops_delete (dst src : SyncDirM) (srcFs dstFs : RelPath → Option File)
    (ops : List SyncOp) (p : RelPath) (h : sync_from dst src srcFs dstFs = Except.ok ops) :
    (SyncOp.delete p ∈ ops ↔ p ∈ pathDiff dst.files src.files) := by
  obtain ⟨-, -, hshape⟩ := sync_from_ok dst src srcFs dstFs ops h
  subst hshape
  simp [List.mem_append, List.mem_map, verifyOf_ne_delete]

/-! ## Claim C3: verify iff copy, and execute checks every verify -/

/-- C3: in every op list produced by SyncDir::sync_from, a VerifyChecksum op
for a relative path p is present iff a Copy op for p is present; and
whenever SyncJob::execute succeeds on such a list, every VerifyChecksum op
re-hashed the destination file and found its CRC-32 equal to the recorded
value (the verifies run last and mutate nothing, so the check holds of the
final tree). -/
theorem verify_iff_copy (dst src : SyncDirM) (srcFs dstFs : RelPath → Option File)
    (ops : List SyncOp) (h : sync_from dst src srcFs dstFs = Except.ok ops) :
    (∀ p, (∃ s c, SyncOp.verifyCheckSum p s c ∈ ops) ↔ SyncOp.copy p ∈ ops) ∧
    (∀ st st', executeOps srcFs st ops = Except.ok st' →
      ∀ p s c, SyncOp.verifyCheckSum p s c ∈ ops →
        ∃ f, st'.files p = some f ∧ f.crc = c) := by
  constructor
  · intro p
    rw [mem_ops_copy dst src srcFs dstFs ops p h, mem_ops_verify dst src srcFs dstFs ops p h]
  · intro st st' hex p s c hm
    obtain ⟨-, -, hshape⟩ := sync_from_ok dst src srcFs dstFs ops h
    subst hshape
    have hex2 : executeOps srcFs st
        (((pathDiff src.dirs dst.dirs).map SyncOp.createDir ++
            ((pathDiff src.files dst.files).map SyncOp.copy ++
              (((pathInter src.files dst.files).filter (fileChangedB srcFs dstFs)).map SyncOp.copy ++
                ((pathDiff dst.files src.files).map SyncOp.delete ++
                  (sortDeepestFirst (pathDiff dst.dirs src.dirs)).map SyncOp.removeDir)))) ++
          ((pathDiff src.files dst.files).map (verifyOf srcFs) ++
            ((pathInter src.files dst.files).filter (fileChangedB srcFs dstFs)).map
              (verifyOf srcFs))) = Except.ok st' := by
      rw [← hex]
      congr 1
      simp [List.append_assoc]
    rw [executeOps_append] at hex2
    split at hex2
    · cases hex2
    · rename_i stM hM
      have hvs : ∀ op ∈ (pathDiff src.files dst.files).map (verifyOf srcFs) ++
          ((pathInter src.files dst.files).filter (fileChangedB srcFs dstFs)).map
            (verifyOf srcFs), ∃ q s' c', op = SyncOp.verifyCheckSum q s' c' := by
        intro op hop
        rcases List.mem_append.mp hop with hop | hop <;>
          · obtain ⟨q, -, hq⟩ := List.mem_map.mp hop
            obtain ⟨s', c', hv⟩ := verifyOf_shape srcFs q
            exact ⟨q, s', c', by rw [← hq, hv]⟩
      obtain ⟨hst, hcheck⟩ := exec_verifies srcFs _ stM st' hvs hex2
      have hmem : SyncOp.verifyCheckSum p s c ∈
          (pathDiff src.files dst.files).map (verifyOf srcFs) ++
            ((pathInter src.files dst.files).filter (fileChangedB srcFs dstFs)).map
              (verifyOf srcFs) := by
        rcases List.mem_append.mp hm with h1 | hm2
        · obtain ⟨q, -, hq⟩ := List.mem_map.mp h1; exact SyncOp.noConfusion hq
        rcases List.mem_append.mp hm2 with h1 | hm2
        · obtain ⟨q, -, hq⟩ := List.mem_map.mp h1; exact SyncOp.noConfusion hq
        rcases List.mem_append.mp hm2 with h1 | hm2
        · obtain ⟨q, -, hq⟩ := List.mem_map.mp h1; exact SyncOp.noConfusion hq
        rcases List.mem_append.mp hm2 with h1 | hm2
        · obtain ⟨q, -, hq⟩ := List.mem_map.mp h1; exact SyncOp.noConfusion hq
        rcases List.mem_append.mp hm2 with h1 | hm2
        · obtain ⟨q, -, hq⟩ := List.mem_map.mp h1; exact SyncOp.noConfusion hq
        exact hm2
      obtain ⟨f, hf, hc⟩ := hcheck p s c hmem
      exact ⟨f, hst ▸ hf, hc⟩

/-- C3 witness: a single new file is planned as a Copy followed by a
VerifyChecksum, and a successful execution leaves the destination holding a
file whose CRC-32 matches the recorded one. -/
theorem verify_iff_copy_witness :
    ∃ ops st', sync_from ⟨[], []⟩ ⟨[], [["a"]]⟩
        (fun q => if q = ["a"] then some ⟨[7], 3⟩ else none) (fun _ => none) = Except.ok ops ∧
      executeOps (fun q => if q = ["a"] then some ⟨[7], 3⟩ else none)
        ⟨fun _ => none, fun _ => false⟩ ops = Except.ok st' ∧
      SyncOp.copy ["a"] ∈ ops ∧
      ∃ f, st'.files ["a"] = some f ∧ f.crc = crc32 [7] := by
  have h := verify_iff_copy ⟨[], []⟩ ⟨[], [["a"]]⟩
    (fun q => if q = ["a"] then some ⟨[7], 3⟩ else none) (fun _ => none) _ rfl
  refine ⟨_, _, rfl, rfl, ?_, ?_⟩
  · exact (h.1 ["a"]).mp ⟨1, crc32 [7], List.mem_cons_of_mem _ (List.mem_singleton.mpr rfl)⟩
  · exact h.2 _ _ rfl ["a"] 1 (crc32 [7]) (List.mem_cons_of_mem _ (List.mem_singleton.mpr rfl))

/-! ## Claim C8: op ordering -/

/-- C8: every op list produced by SyncDir::sync_from lists, in this order:
CreateDir ops for dirs in src minus dst; Copy ops for files in src minus
dst, then Copy ops for the changed files of the intersection; Delete ops
for files in dst minus src; RemoveDir ops for the dirs in dst minus src
sorted by descending component count (a permutation of that set, pairwise
deepest-first); and all deferred VerifyChecksum ops at the end. -/
theorem plan_op_order (dst src : SyncDirM) (srcFs dstFs : RelPath → Option File)
    (ops : List SyncOp) (h : sync_from dst src srcFs dstFs = Except.ok ops) :
    ∃ rds verifies,
      ops = (pathDiff src.dirs dst.dirs).map SyncOp.createDir ++
        (pathDiff src.files dst.files).map SyncOp.copy ++
        ((pathInter src.files dst.files).filter (fileChangedB srcFs dstFs)).map SyncOp.copy ++
        (pathDiff dst.files src.files).map SyncOp.delete ++
        rds.map SyncOp.removeDir ++ verifies ∧
      rds.Perm (pathDiff dst.dirs src.dirs) ∧
      List.Pairwise (fun a b : RelPath => b.length ≤ a.length) rds ∧
      (∀ op ∈ verifies, ∃ p s c, op = SyncOp.verifyCheckSum p s c) := by
  obtain ⟨-, -, hshape⟩ := sync_from_ok dst src srcFs dstFs ops h
  refine ⟨sortDeepestFirst (pathDiff dst.dirs src.dirs),
    (pathDiff src.files dst.files).map (verifyOf srcFs) ++
      ((pathInter src.files dst.files).filter (fileChangedB srcFs dstFs)).map (verifyOf srcFs),
    ?_, sortDeepestFirst_perm _, sortDeepestFirst_sorted _, ?_⟩
  · rw [hshape]; simp [List.append_assoc]
  · intro op hop
    rcases List.mem_append.mp hop with hop | hop <;>
      · obtain ⟨q, -, hq⟩ := List.mem_map.mp hop
        obtain ⟨s, c, hv⟩ := verifyOf_shape srcFs q
        exact ⟨q, s, c, by rw [← hq, hv]⟩

/-- C8 witness: a plan involving one new file, one stale destination file
and one new source directory exhibits the claimed segment ordering. -/
theorem plan_op_order_witness :
    ∃ ops, sync_from ⟨[], [["b"]]⟩ ⟨[["d"]], [["a"]]⟩
        (fun q => if q = ["a"] then some ⟨[1], 0⟩ else none)
        (fun q => if q = ["b"] then some ⟨[2], 0⟩ else none) = Except.ok ops ∧
      ∃ rds verifies,
        ops = (pathDiff [["d"]] []).map SyncOp.createDir ++
          (pathDiff [["a"]] [["b"]]).map SyncOp.copy ++
          ((pathInter [["a"]] [["b"]]).filter
            (fileChangedB (fun q => if q = ["a"] then some ⟨[1], 0⟩ else none)
              (fun q => if q = ["b"] then some ⟨[2], 0⟩ else none))).map SyncOp.copy ++
          (pathDiff [["b"]] [["a"]]).map SyncOp.delete ++
          rds.map SyncOp.removeDir ++ verifies ∧
        rds.Perm (pathDiff [["b"]].tail [["d"]]) ∧
        List.Pairwise (fun a b : RelPath => b.length ≤ a.length) rds ∧
        (∀ op ∈ verifies, ∃ p s c, op = SyncOp.verifyCheckSum p s c) :=
  ⟨_, rfl, plan_op_order ⟨[], [["b"]]⟩ ⟨[["d"]], [["a"]]⟩
    (fun q => if q = ["a"] then some ⟨[1], 0⟩ else none)
    (fun q => if q = ["b"] then some ⟨[2], 0⟩ else none) _ rfl⟩

/-! ## Claim C1: include and ignore filtering -/

theorem scanEntries_excludes (includeMatch : Option (RelPath → Bool))
    (ignoreMatch : RelPath → Bool) (entries : List (RelPath × Bool)) (p : RelPath)
    (hskip : ignoreMatch p = true ∨ ∃ f, includeMatch = some f ∧ f p = false) :
    p ∉ (scanEntries includeMatch ignoreMatch entries).files := by
  induction entries with
  | nil => simp [scanEntries]
  | cons e rest ih =>
      obtain ⟨q, isFile⟩ := e
      simp only [scanEntries]
      by_cases hig : ignoreMatch q
      · simpa [hig] using ih
      · simp only [hig, if_false, Bool.false_eq_true]
        cases isFile with
        | false => simpa using ih
        | true =>
            cases hinc : includeMatch with
            | none =>
                subst hinc
                simp only []
                intro hm
                rcases List.mem_cons.mp hm with hm | hm
                · subst hm
                  rcases hskip with hskip | ⟨f, hf, -⟩
                  · rw [hskip] at hig; exact hig rfl
                  · cases hf
                · exact ih hm
            | some inc =>
                subst hinc
                by_cases hq : inc q
                · simp only [hq, if_true]
                  intro hm
                  rcases List.mem_cons.mp hm with hm | hm
                  · subst hm
                    rcases hskip with hskip | ⟨f, hf, hfp⟩
                    · rw [hskip] at hig; exact hig rfl
                    · injection hf with hf
                      rw [← hf] at hfp
                      rw [hfp] at hq
                      cases hq
                  · exact ih hm
                · simpa [hq] using ih

theorem sync_from_excluded (dst src : SyncDirM) (srcFs dstFs : RelPath → Option File)
    (ops : List SyncOp) (p : RelPath) (hp : p ∉ src.files)
    (h : sync_from dst src srcFs dstFs = Except.ok ops) :
    SyncOp.copy p ∉ ops ∧ (∀ s c, SyncOp.verifyCheckSum p s c ∉ ops) ∧
    (p ∈ dst.files → SyncOp.delete p ∈ ops) := by
  refine ⟨?_, ?_, ?_⟩
  · intro hm
    rcases (mem_ops_copy dst src srcFs dstFs ops p h).mp hm with hm | hm
    · exact hp (List.mem_of_mem_filter hm)
    · exact hp (List.mem_of_mem_filter (List.mem_of_mem_filter hm))
  · intro s c hm
    rcases (mem_ops_verify dst src srcFs dstFs ops p h).mp ⟨s, c, hm⟩ with hm | hm
    · exact hp (List.mem_of_mem_filter hm)
    · exact hp (List.mem_of_mem_filter (List.mem_of_mem_filter hm))
  · intro hd
    rw [mem_ops_delete dst src srcFs dstFs ops p h]
    simp only [pathDiff, List.mem_filter, decide_eq_true_eq]
    exact ⟨hd, hp⟩

/-- C1: a file whose relative path matches the ignore set, or fails a
configured include set, is dropped by the directory scan, so no plan over
that scan ever copies it (or records a checksum for it) into the staging
tree, and a stale staging copy of it is deleted; hence it never appears in
an archive produced by CreateBackup. The scan with include support is
modelled from the spec, the revision of sync.rs under src/ predating the
include parameter the engine passes. -/
theorem include_ignore_never_staged (includeMatch : Option (RelPath → Bool))
    (ignoreMatch : RelPath → Bool) (entries : List (RelPath × Bool)) (p : RelPath)
    (hskip : ignoreMatch p = true ∨ ∃ f, includeMatch = some f ∧ f p = false) :
    p ∉ (scanEntries includeMatch ignoreMatch entries).files ∧
    ∀ (dstD : SyncDirM) (srcFs dstFs : RelPath → Option File) (ops : List SyncOp),
      sync_from dstD (scanEntries includeMatch ignoreMatch entries) srcFs dstFs =
        Except.ok ops →
      SyncOp.copy p ∉ ops ∧ (∀ s c, SyncOp.verifyCheckSum p s c ∉ ops) ∧
      (p ∈ dstD.files → SyncOp.delete p ∈ ops) := by
  have hx := scanEntries_excludes includeMatch ignoreMatch entries p hskip
  exact ⟨hx, fun dstD srcFs dstFs ops h =>
    sync_from_excluded dstD _ srcFs dstFs ops p hx h⟩

/-- C1 witness: an ignored file present in both the source walk and the
staging tree is neither copied nor checksummed, and its stale staging copy
is deleted. -/
theorem include_ignore_never_staged_witness :
    ∃ ops, sync_from ⟨[], [["n"]]⟩
        (scanEntries (some (fun q => decide (q = ["a"]))) (fun q => decide (q = ["n"]))
          [(["n"], true), (["a"], true)])
        (fun q => if q = ["a"] then some ⟨[], 0⟩ else none) (fun _ => none) =
        Except.ok ops ∧
      SyncOp.copy ["n"] ∉ ops ∧ SyncOp.delete ["n"] ∈ ops := by
  have h := (include_ignore_never_staged (some (fun q => decide (q = ["a"])))
    (fun q => decide (q = ["n"])) [(["n"], true), (["a"], true)] ["n"]
    (Or.inl (by decide))).2 ⟨[], [["n"]]⟩
    (fun q => if q = ["a"] then some ⟨[], 0⟩ else none) (fun _ => none) _ rfl
  exact ⟨_, rfl, h.1, h.2.2 (by simp)⟩

/-! ## Claim C10: destination scanned unfiltered, ignored live files deleted -/

/-- C10: sync_dir scans the destination with GlobSet::empty, so any file
present in the destination tree but absent from the filtered source scan
gets a Delete op, including destination files whose relative paths match
the ignore set; on a restore this deletes live files matching the ignore
patterns even though they were never included in the backup. -/
theorem restore_deletes_ignored (ignoreMatch : RelPath → Bool) (univ : List RelPath)
    (srcT dstT : Tree) (p : RelPath) (ops : List SyncOp)
    (h : syncDirPlan ignoreMatch univ srcT dstT = Except.ok ops)
    (hp : p ∈ univ) (hdst : (dstT.files p).isSome = true)
    (hsrc : ignoreMatch p = true ∨ srcT.files p = none) :
    SyncOp.delete p ∈ ops := by
  unfold syncDirPlan at h
  rw [mem_ops_delete _ _ _ _ ops p h]
  simp only [pathDiff, List.mem_filter, decide_eq_true_eq]
  constructor
  · simp only [scanTree, List.mem_filter]
    exact ⟨hp, by simp [hdst]⟩
  · simp only [scanTree, List.mem_filter]
    intro hmem
    obtain ⟨-, hcond⟩ := hmem
    rcases hsrc with hsrc | hsrc
    · simp [hsrc] at hcond
    · simp [hsrc] at hcond

/-- C10 witness: a live file matching the ignore pattern, absent from the
(staging) source because the backup filtered it out, is planned for
deletion by the restoring sync. -/
theorem restore_deletes_ignored_witness :
    ∃ ops, syncDirPlan (fun q => decide (q = ["n"])) [["n"]]
        ⟨fun q => if q = ["n"] then some ⟨[], 0⟩ else none, fun _ => false⟩
        ⟨fun q => if q = ["n"] then some ⟨[], 0⟩ else none, fun _ => false⟩ =
        Except.ok ops ∧
      SyncOp.delete ["n"] ∈ ops := by
  refine ⟨_, rfl, ?_⟩
  exact restore_deletes_ignored (fun q => decide (q = ["n"])) [["n"]]
    ⟨fun q => if q = ["n"] then some ⟨[], 0⟩ else none, fun _ => false⟩
    ⟨fun q => if q = ["n"] then some ⟨[], 0⟩ else none, fun _ => false⟩
    ["n"] _ rfl (by simp) rfl (Or.inl (by decide))

/-! ## Small set lemmas for claim C4 -/

theorem mem_pathDiff (a b : List RelPath) (q : RelPath) :
    q ∈ pathDiff a b ↔ q ∈ a ∧ q ∉ b := by
  simp [pathDiff, List.mem_filter]

theorem mem_pathInter (a b : List RelPath) (q : RelPath) :
    q ∈ pathInter a b ↔ q ∈ a ∧ q ∈ b := by
  simp [pathInter, List.mem_filter]

theorem pathDiff_self (l : List RelPath) : pathDiff l l = [] := by
  simp only [pathDiff, List.filter_eq_nil_iff]
  intro a ha
  simp [ha]

theorem pathInter_self (l : List RelPath) : pathInter l l = l := by
  simp only [pathInter]
  rw [List.filter_eq_self]
  intro a ha
  simp [ha]

theorem mem_scanTree_files (ign : RelPath → Bool) (univ : List RelPath) (t : Tree)
    (q : RelPath) :
    q ∈ (scanTree ign univ t).files ↔
      q ∈ univ ∧ (t.files q).isSome = true ∧ ign q = false := by
  simp [scanTree, List.mem_filter, Bool.and_eq_true, Bool.not_eq_true', and_assoc]

theorem mem_scanTree_dirs (ign : RelPath → Bool) (univ : List RelPath) (t : Tree)
    (q : RelPath) :
    q ∈ (scanTree ign univ t).dirs ↔ q ∈ univ ∧ t.dirs q = true ∧ ign q = false := by
  simp [scanTree, List.mem_filter, Bool.and_eq_true, Bool.not_eq_true', and_assoc]

theorem fileChangedB_false_iff (srcFs dstFs : RelPath → Option File) (q : RelPath)
    (sf df : File) (hs : srcFs q = some sf) (hd : dstFs q = some df) :
    fileChangedB srcFs dstFs q = false ↔ (sf.size = df.size ∧ sf.mtime = df.mtime) := by
  by_cases hc : sf.size = df.size ∧ sf.mtime = df.mtime <;>
    simp [fileChangedB, hs, hd, hc]

theorem planChanged_skip (srcFs dstFs : RelPath → Option File) (l : List RelPath)
    (h : ∀ p ∈ l, ∃ sf df, srcFs p = some sf ∧ dstFs p = some df ∧
      sf.size = df.size ∧ sf.mtime = df.mtime) :
    planChanged srcFs dstFs l = Except.ok ([], []) := by
  induction l with
  | nil => rfl
  | cons p rest ih =>
      obtain ⟨sf, df, hs, hd, h1, h2⟩ := h p (by simp)
      have hrest := ih (fun p hp => h p (List.mem_cons_of_mem _ hp))
      simp only [planChanged, hs, hd, hrest]
      rw [if_pos ⟨h1, h2⟩]

theorem syncDirM_ext (a b : SyncDirM) (hd : a.dirs = b.dirs) (hf : a.files = b.files) :
    a = b := by
  cases a
  cases b
  cases hd
  cases hf
  rfl

/-! ## Execution effect of each op segment -/

theorem exec_createDirs (srcFs : RelPath → Option File) (l : List RelPath) (st st' : Tree)
    (h : executeOps srcFs st (l.map SyncOp.createDir) = Except.ok st') :
    (∀ q, st'.files q = st.files q) ∧
    (∀ q, st'.dirs q = (decide (q ∈ l) || st.dirs q)) := by
  induction l generalizing st with
  | nil =>
      simp only [List.map_nil, executeOps, Except.ok.injEq] at h
      subst h
      simp
  | cons p rest ih =>
      simp only [List.map_cons, executeOps, applyOp] at h
      obtain ⟨hf, hd⟩ := ih _ h
      refine ⟨fun q => hf q, fun q => ?_⟩
      rw [hd q]
      by_cases hqp : q = p <;> by_cases hq : q ∈ rest <;> simp [hqp, hq]

theorem exec_copies (srcFs : RelPath → Option File) (l : List RelPath) (st st' : Tree)
    (h : executeOps srcFs st (l.map SyncOp.copy) = Except.ok st') :
    (∀ q, st'.dirs q = st.dirs q) ∧
    (∀ q, st'.files q = if q ∈ l then srcFs q else st.files q) := by
  induction l generalizing st with
  | nil =>
      simp only [List.map_nil, executeOps, Except.ok.injEq] at h
      subst h
      simp
  | cons p rest ih =>
      simp only [List.map_cons, executeOps, applyOp] at h
      split at h
      · cases h
      · rename_i st1 hs
        split at hs
        · cases hs
        · rename_i f hsf
          injection hs with hs
          subst hs
          obtain ⟨hd, hf⟩ := ih _ h
          refine ⟨fun q => hd q, fun q => ?_⟩
          rw [hf q]
          by_cases hq : q ∈ rest
          · simp [hq]
          · by_cases hqp : q = p
            · subst hqp
              simp [hq, hsf]
            · simp [hq, hqp]

theorem exec_deletes (srcFs : RelPath → Option File) (l : List RelPath) (st st' : Tree)
    (h : executeOps srcFs st (l.map SyncOp.delete) = Except.ok st') :
    (∀ q, st'.dirs q = st.dirs q) ∧
    (∀ q, st'.files q = if q ∈ l then none else st.files q) := by
  induction l generalizing st with
  | nil =>
      simp only [List.map_nil, executeOps, Except.ok.injEq] at h
      subst h
      simp
  | cons p rest ih =>
      simp only [List.map_cons, executeOps, applyOp] at h
      split at h
      · cases h
      · rename_i st1 hs
        split at hs
        · cases hs
        · rename_i f hsf
          injection hs with hs
          subst hs
          obtain ⟨hd, hf⟩ := ih _ h
          refine ⟨fun q => hd q, fun q => ?_⟩
          rw [hf q]
          by_cases hq : q ∈ rest
          · simp [hq]
          · by_cases hqp : q = p
            · subst hqp
              simp [hq]
            · simp [hq, hqp]

theorem exec_removeDirs (srcFs : RelPath → Option File) (l : List RelPath) (st st' : Tree)
    (h : executeOps srcFs st (l.map SyncOp.removeDir) = Except.ok st') :
    (∀ q, st'.files q = st.files q) ∧
    (∀ q, st'.dirs q = if q ∈ l then false else st.dirs q) := by
  induction l generalizing st with
  | nil =>
      simp only [List.map_nil, executeOps, Except.ok.injEq] at h
      subst h
      simp
  | cons p rest ih =>
      simp only [List.map_cons, executeOps, applyOp] at h
      split at h
      · cases h
      · rename_i st1 hs
        split at hs
        · rename_i hdp
          injection hs with hs
          subst hs
          obtain ⟨hf, hd⟩ := ih _ h
          refine ⟨fun q => hf q, fun q => ?_⟩
          rw [hd q]
          by_cases hq : q ∈ rest
          · simp [hq]
          · by_cases hqp : q = p
            · subst hqp
              simp [hq]
            · simp [hq, hqp]
        · cases hs

/-! ## Claim C4: idempotent sync -/

/-- C4: after one successful scan-plan-execute cycle of sync_dir and with no
intervening change to either tree, a second cycle plans zero ops: the Copy
executor writes the source's content and the source's last-modified time to
the destination, so the size-and-mtime comparison skips every file on the
second run; in particular every copied path ends up holding exactly the
source's file, content and mtime included. -/
theorem sync_idempotent (ignoreMatch : RelPath → Bool) (univ : List RelPath)
    (srcT dstT dst2 : Tree) (ops : List SyncOp)
    (h1 : syncDirPlan ignoreMatch univ srcT dstT = Except.ok ops)
    (h2 : executeOps srcT.files dstT ops = Except.ok dst2) :
    syncDirPlan ignoreMatch univ srcT dst2 = Except.ok [] ∧
    ∀ p, SyncOp.copy p ∈ ops → dst2.files p = srcT.files p := by
  unfold syncDirPlan at h1 ⊢
  obtain ⟨hnew, hint, hshape⟩ := sync_from_ok _ _ _ _ _ h1
  set S := scanTree ignoreMatch univ srcT with hSdef
  set D := scanTree (fun _ => false) univ dstT with hDdef
  set newL := pathDiff S.files D.files with hnewL
  set chgL := (pathInter S.files D.files).filter (fileChangedB srcT.files dstT.files)
    with hchgL
  set delL := pathDiff D.files S.files with hdelL
  set cdL := pathDiff S.dirs D.dirs with hcdL
  set rdL := pathDiff D.dirs S.dirs with hrdL
  have hmemSf : ∀ q, q ∈ S.files ↔
      q ∈ univ ∧ (srcT.files q).isSome = true ∧ ignoreMatch q = false := by
    intro q
    rw [hSdef]
    exact mem_scanTree_files ignoreMatch univ srcT q
  have hmemSd : ∀ q, q ∈ S.dirs ↔
      q ∈ univ ∧ srcT.dirs q = true ∧ ignoreMatch q = false := by
    intro q
    rw [hSdef]
    exact mem_scanTree_dirs ignoreMatch univ srcT q
  have hmemDf : ∀ q, q ∈ D.files ↔ q ∈ univ ∧ (dstT.files q).isSome = true := by
    intro q
    rw [hDdef, mem_scanTree_files]
    simp
  have hmemDd : ∀ q, q ∈ D.dirs ↔ q ∈ univ ∧ dstT.dirs q = true := by
    intro q
    rw [hDdef, mem_scanTree_dirs]
    simp
  subst hshape
  rw [executeOps_append] at h2
  split at h2
  · cases h2
  rename_i st1 hA
  rw [executeOps_append] at h2
  split at h2
  · cases h2
  rename_i st2 hB
  rw [executeOps_append] at h2
  split at h2
  · cases h2
  rename_i st3 hC
  rw [executeOps_append] at h2
  split at h2
  · cases h2
  rename_i st4 hD
  rw [executeOps_append] at h2
  split at h2
  · cases h2
  rename_i st5 hE
  have hvs : ∀ op ∈ newL.map (verifyOf srcT.files) ++ chgL.map (verifyOf srcT.files),
      ∃ p s c, op = SyncOp.verifyCheckSum p s c := by
    intro op hop
    rcases List.mem_append.mp hop with hop | hop <;>
      · obtain ⟨q, -, hq⟩ := List.mem_map.mp hop
        obtain ⟨s, c, hv⟩ := verifyOf_shape srcT.files q
        exact ⟨q, s, c, by rw [← hq, hv]⟩
  obtain ⟨hst5, -⟩ := exec_verifies srcT.files _ st5 dst2 hvs h2
  obtain ⟨hAf, hAd⟩ := exec_createDirs srcT.files cdL dstT st1 hA
  obtain ⟨hBd, hBf⟩ := exec_copies srcT.files newL st1 st2 hB
  obtain ⟨hCd, hCf⟩ := exec_copies srcT.files chgL st2 st3 hC
  obtain ⟨hDd, hDf⟩ := exec_deletes srcT.files delL st3 st4 hD
  obtain ⟨hEf, hEd⟩ := exec_removeDirs srcT.files (sortDeepestFirst rdL) st4 st5 hE
  have hfiles : ∀ q, dst2.files q =
      if q ∈ delL then none
      else if q ∈ chgL then srcT.files q
      else if q ∈ newL then srcT.files q
      else dstT.files q := by
    intro q
    rw [hst5, hEf q, hDf q, hCf q, hBf q, hAf q]
  have hdirs : ∀ q, dst2.dirs q =
      if q ∈ sortDeepestFirst rdL then false
      else (decide (q ∈ cdL) || dstT.dirs q) := by
    intro q
    rw [hst5, hEd q, hDd q, hCd q, hBd q, hAd q]
  have hptf : ∀ q ∈ univ,
      ((dst2.files q).isSome && !(fun _ : RelPath => false) q) =
        ((srcT.files q).isSome && !ignoreMatch q) := by
    intro q hq
    simp only [Bool.not_false, Bool.and_true]
    rw [hfiles q]
    by_cases hdel : q ∈ delL
    · rw [if_pos hdel]
      obtain ⟨hqD, hqS⟩ := (mem_pathDiff _ _ q).mp hdel
      cases hbv : ((srcT.files q).isSome && !ignoreMatch q) with
      | false => rfl
      | true =>
          exfalso
          rw [Bool.and_eq_true, Bool.not_eq_true'] at hbv
          exact hqS ((hmemSf q).mpr ⟨hq, hbv.1, hbv.2⟩)
    · rw [if_neg hdel]
      by_cases hchg : q ∈ chgL
      · rw [if_pos hchg]
        have hqS : q ∈ S.files :=
          ((mem_pathInter _ _ q).mp (List.mem_filter.mp hchg).1).1
        obtain ⟨-, -, hig⟩ := (hmemSf q).mp hqS
        simp [hig]
      · rw [if_neg hchg]
        by_cases hnewm : q ∈ newL
        · rw [if_pos hnewm]
          have hqS : q ∈ S.files := ((mem_pathDiff _ _ q).mp hnewm).1
          obtain ⟨-, -, hig⟩ := (hmemSf q).mp hqS
          simp [hig]
        · rw [if_neg hnewm]
          cases hbv : ((srcT.files q).isSome && !ignoreMatch q) with
          | true =>
              rw [Bool.and_eq_true, Bool.not_eq_true'] at hbv
              have hqS : q ∈ S.files := (hmemSf q).mpr ⟨hq, hbv.1, hbv.2⟩
              have hqD : q ∈ D.files := by
                by_contra hqD
                exact hnewm ((mem_pathDiff _ _ q).mpr ⟨hqS, hqD⟩)
              exact ((hmemDf q).mp hqD).2
          | false =>
              cases hdv : (dstT.files q).isSome with
              | false => rfl
              | true =>
                  exfalso
                  have hqD : q ∈ D.files := (hmemDf q).mpr ⟨hq, hdv⟩
                  have hqS : q ∉ S.files := by
                    intro hqS
                    obtain ⟨-, hsome, hig⟩ := (hmemSf q).mp hqS
                    rw [hsome, hig] at hbv
                    simp at hbv
                  exact hdel ((mem_pathDiff _ _ q).mpr ⟨hqD, hqS⟩)
  have hptd : ∀ q ∈ univ,
      (dst2.dirs q && !(fun _ : RelPath => false) q) = (srcT.dirs q && !ignoreMatch q) := by
    intro q hq
    simp only [Bool.not_false, Bool.and_true]
    rw [hdirs q]
    by_cases hrd : q ∈ sortDeepestFirst rdL
    · rw [if_pos hrd]
      have hrd2 : q ∈ rdL := (sortDeepestFirst_perm rdL).mem_iff.mp hrd
      obtain ⟨hqD, hqS⟩ := (mem_pathDiff _ _ q).mp hrd2
      cases hbv : (srcT.dirs q && !ignoreMatch q) with
      | false => rfl
      | true =>
          exfalso
          rw [Bool.and_eq_true, Bool.not_eq_true'] at hbv
          exact hqS ((hmemSd q).mpr ⟨hq, hbv.1, hbv.2⟩)
    · rw [if_neg hrd]
      have hrd2 : q ∉ rdL := fun hx => hrd ((sortDeepestFirst_perm rdL).mem_iff.mpr hx)
      by_cases hcd : q ∈ cdL
      · have hqS : q ∈ S.dirs := ((mem_pathDiff _ _ q).mp hcd).1
        obtain ⟨-, hsd, hig⟩ := (hmemSd q).mp hqS
        simp [hcd, hsd, hig]
      · cases hbv : (srcT.dirs q && !ignoreMatch q) with
        | true =>
            rw [Bool.and_eq_true, Bool.not_eq_true'] at hbv
            have hqS : q ∈ S.dirs := (hmemSd q).mpr ⟨hq, hbv.1, hbv.2⟩
            have hqD : q ∈ D.dirs := by
              by_contra hqD
              exact hcd ((mem_pathDiff _ _ q).mpr ⟨hqS, hqD⟩)
            have hdd : dstT.dirs q = true := ((hmemDd q).mp hqD).2
            simp [hcd, hdd]
        | false =>
            cases hdv : dstT.dirs q with
            | false => simp [hcd, hdv]
            | true =>
                exfalso
                have hqD : q ∈ D.dirs := (hmemDd q).mpr ⟨hq, hdv⟩
                have hqS : q ∉ S.dirs := by
                  intro hqS
                  obtain ⟨-, hsd, hig⟩ := (hmemSd q).mp hqS
                  rw [hsd, hig] at hbv
                  simp at hbv
                exact hrd2 ((mem_pathDiff _ _ q).mpr ⟨hqD, hqS⟩)
  have hfeq : (scanTree (fun _ => false) univ dst2).files = S.files := by
    rw [hSdef]
    simp only [scanTree]
    exact List.filter_congr fun q hq => by simpa using hptf q hq
  have hdeq : (scanTree (fun _ => false) univ dst2).dirs = S.dirs := by
    rw [hSdef]
    simp only [scanTree]
    exact List.filter_congr fun q hq => by simpa using hptd q hq
  have hS2 : scanTree (fun _ => false) univ dst2 = S := syncDirM_ext _ _ hdeq hfeq
  constructor
  · rw [hS2]
    have hplanChg : planChanged srcT.files dst2.files S.files = Except.ok ([], []) := by
      apply planChanged_skip
      intro p hp
      obtain ⟨hpu, hsome, hig⟩ := (hmemSf p).mp hp
      obtain ⟨sf, hsf⟩ := Option.isSome_iff_exists.mp hsome
      have hpdel : p ∉ delL := fun hx => ((mem_pathDiff _ _ p).mp hx).2 hp
      by_cases hchg : p ∈ chgL
      · refine ⟨sf, sf, hsf, ?_, rfl, rfl⟩
        rw [hfiles p, if_neg hpdel, if_pos hchg]
        exact hsf
      · by_cases hnewm : p ∈ newL
        · refine ⟨sf, sf, hsf, ?_, rfl, rfl⟩
          rw [hfiles p, if_neg hpdel, if_neg hchg, if_pos hnewm]
          exact hsf
        · have hpD : p ∈ D.files := by
            by_contra hpD
            exact hnewm ((mem_pathDiff _ _ p).mpr ⟨hp, hpD⟩)
          have hpint : p ∈ pathInter S.files D.files := (mem_pathInter _ _ p).mpr ⟨hp, hpD⟩
          have hcb : fileChangedB srcT.files dstT.files p = false := by
            cases hcb : fileChangedB srcT.files dstT.files p with
            | false => rfl
            | true => exact absurd (List.mem_filter.mpr ⟨hpint, hcb⟩) hchg
          obtain ⟨-, hdsome⟩ := hint p hpint
          obtain ⟨df, hdf⟩ := Option.isSome_iff_exists.mp hdsome
          obtain ⟨hsz, hmt⟩ :=
            (fileChangedB_false_iff srcT.files dstT.files p sf df hsf hdf).mp hcb
          refine ⟨sf, df, hsf, ?_, hsz, hmt⟩
          rw [hfiles p, if_neg hpdel, if_neg hchg, if_neg hnewm]
          exact hdf
    unfold sync_from
    rw [pathDiff_self, pathDiff_self, pathInter_self, hplanChg]
    simp [planNew, sortDeepestFirst]
  · intro p hcopy
    have hmem := (mem_ops_copy _ _ _ _ _ p h1).mp hcopy
    have hpS : p ∈ S.files := by
      rcases hmem with hm | hm
      · exact ((mem_pathDiff _ _ p).mp hm).1
      · exact ((mem_pathInter _ _ p).mp (List.mem_filter.mp hm).1).1
    have hpdel : p ∉ delL := fun hx => ((mem_pathDiff _ _ p).mp hx).2 hpS
    rw [hfiles p, if_neg hpdel]
    rcases hmem with hm | hm
    · by_cases hchg : p ∈ chgL
      · rw [if_pos hchg]
      · rw [if_neg hchg, if_pos hm]
    · rw [if_pos hm]

/-- C4 witness: copying one new file and verifying it leaves a destination
on which the second plan is empty. -/
theorem sync_idempotent_witness :
    ∃ ops dst2,
      syncDirPlan (fun _ => false) [["a"]]
          (Tree.mk (fun q => if q = ["a"] then some ⟨[5], 1⟩ else none) (fun _ => false))
          (Tree.mk (fun _ => none) (fun _ => false)) = Except.ok ops ∧
      executeOps
          (Tree.mk (fun q => if q = ["a"] then some ⟨[5], 1⟩ else none)
            (fun _ => false)).files
          (Tree.mk (fun _ => none) (fun _ => false)) ops = Except.ok dst2 ∧
      syncDirPlan (fun _ => false) [["a"]]
          (Tree.mk (fun q => if q = ["a"] then some ⟨[5], 1⟩ else none) (fun _ => false))
          dst2 = Except.ok [] := by
  refine ⟨_, _, rfl, rfl, ?_⟩
  exact (sync_idempotent (fun _ => false) [["a"]]
    (Tree.mk (fun q => if q = ["a"] then some ⟨[5], 1⟩ else none) (fun _ => false))
    (Tree.mk (fun _ => none) (fun _ => false)) _ _ rfl rfl).1

end Stool
